import Mathlib

/-!
Shallow embedding of the metric-extraction core of Data2MusicTool
(`src/metrics.py`).  Decoded video frames are lists of pixels, each pixel a
list of 8-bit channel intensities; a frame source is the declared frame count
together with the stream of read results (`none` models a failed decode).
NumPy unsigned accumulations are modelled by explicit `% 2 ^ 32` (uint32) and
`% 2 ^ 16` (uint16); exact numeric values are modelled in `ℚ`.
Python-level crashes (IndexError, ValueError, KeyError, attribute errors)
are modelled by `Option`, with `none` for a raised exception.
-/

namespace Data2Music

/-- A decoded video frame: a list of pixels, each pixel a list of channel
intensities (decoded frames carry unsigned 8-bit samples). -/
abbrev Frame := List (List Nat)

/-- Model of an opened video stream (`cv2.VideoCapture`): the declared
`CAP_PROP_FRAME_COUNT` and the successive results of `video.read()`
(`none` when the read fails, as at end-of-stream or on a corrupt frame).
Reads past the end of `frames` also fail. -/
structure FrameSource where
  count : Nat
  frames : List (Option Frame)
deriving DecidableEq

/-- The k-th `video.read()` result of a source. -/
def readFrame (v : FrameSource) (k : Nat) : Option Frame :=
  (v.frames.get? k).join

/-- Modulus of the `np.uint32` accumulator used by `np.sum(..., dtype=np.uint32)`. -/
def U32 : Nat := 2 ^ 32

/-- Total of all channel intensities of all pixels of a frame
(`np.sum(frame)` before the dtype reduction). -/
def frameSum (f : Frame) : Nat := (f.map List.sum).sum

/-- Loop body of `brightness`: one entry per declared frame, `-1` on a failed
read, otherwise the uint32 sum of the frame buffer. -/
def brightLoop : List (Option Frame) → Nat → List Int
  | _, 0 => []
  | [], n + 1 => (-1) :: brightLoop [] n
  | none :: rest, n + 1 => (-1) :: brightLoop rest n
  | some f :: rest, n + 1 => ((frameSum f % U32 : Nat) : Int) :: brightLoop rest n

/-- Embedding of `metrics.brightness`. -/
def brightness (v : FrameSource) : List Int := brightLoop v.frames v.count

/-- A large single-channel frame (2^25 pixels, every sample at full
intensity 255); its exact sample total 2^25 * 255 exceeds the uint32
accumulator range. -/
def ovFrame : Frame := List.replicate (2 ^ 25) [255]

/-- Sum of absolute per-channel differences of two equally shaped frames
(`np.sum(np.absolute(frame2 - frame))` over int16 frames, exact since
channel values are below 256). -/
def sad (f1 f2 : Frame) : Nat :=
  (List.zipWith (fun p q =>
    (List.zipWith (fun (a b : Nat) => ((a : Int) - (b : Int)).natAbs) p q).sum) f1 f2).sum

/-- Loop body of `contrast`: on a failed read `-1` is appended and the
previous-frame reference `prev` is kept (the Python `continue` skips the
`frame = frame2` assignment); on success the uint32 sum of absolute
differences against `prev` is appended and `prev` advances. -/
def contrastLoop : Frame → List (Option Frame) → Nat → List Int
  | _, _, 0 => []
  | prev, [], n + 1 => (-1) :: contrastLoop prev [] n
  | prev, none :: rest, n + 1 => (-1) :: contrastLoop prev rest n
  | prev, some f :: rest, n + 1 =>
      ((sad prev f % U32 : Nat) : Int) :: contrastLoop f rest n

/-- Embedding of `metrics.contrast`.  The first read is unconditional and its
result is fed to `.astype(np.int16)`, so a failed first read (`frame is None`)
raises an AttributeError: that is the `none` case. -/
def contrast (v : FrameSource) : Option (List Int) :=
  match v.frames with
  | [] => none
  | none :: _ => none
  | some f :: rest => some (contrastLoop f rest (v.count - 1))

/-- Bin index of a pixel in `histogram`: each channel is divided by
`256 // 8 = 32` and the three quotients are combined by the dot product
with `[64, 8, 1]`. -/
def binOf (p : List Nat) : Nat :=
  (List.zipWith (fun a w => (a / 32) * w) p [64, 8, 1]).sum

/-- Per-frame occupancy vector of `histogram`:
`np.bincount(..., minlength := 512)` over the pixels' bin indices. -/
def bincount (f : Frame) : List Nat :=
  (List.range 512).map (fun b => f.countP (fun p => binOf p == b))

/-- Loop body of `histogram`: the retained previous occupancy `counts` is
updated only on a successful read; a failed read appends `-1` and keeps it. -/
def histLoop : List Int → List (Option Frame) → Nat → List Int
  | _, _, 0 => []
  | counts, [], n + 1 => (-1) :: histLoop counts [] n
  | counts, none :: rest, n + 1 => (-1) :: histLoop counts rest n
  | counts, some f :: rest, n + 1 =>
      let tmp := (bincount f).map (fun c => (c : Int))
      (List.zipWith (fun a b => |a - b|) tmp counts).sum :: histLoop tmp rest n

/-- Embedding of `metrics.histogram`: `count - 1` iterations starting from an
all-zero 512-bin occupancy. -/
def histogram (v : FrameSource) : List Int :=
  histLoop (List.replicate 512 0) v.frames (v.count - 1)

/-- Model of an opened PCM audio stream (`wave.open`): channel count, sample
width in bytes, and the raw byte stream (each entry below 256). -/
structure AudioSource where
  nchannels : Nat
  sampwidth : Nat
  bytes : List Nat
deriving DecidableEq

/-- Total sample-frame count of the audio stream (`w.getnframes()`). -/
def getnframes (a : AudioSource) : Nat :=
  a.bytes.length / (a.nchannels * a.sampwidth)

/-- Little-endian value of a byte group. -/
def leVal : List Nat → Nat
  | [] => 0
  | b :: bs => b + 256 * leVal bs

/-- Consecutive groups of `w` bytes (a trailing partial group is not formed). -/
def chunksOf (w : Nat) (l : List Nat) : List (List Nat) :=
  (List.range (l.length / w)).map (fun i => (l.drop (i * w)).take w)

/-- Two's-complement reading of a `w`-byte little-endian value. -/
def toSigned (w : Nat) (v : Nat) : Int :=
  if v < 2 ^ (8 * w - 1) then (v : Int) else (v : Int) - 2 ^ (8 * w)

/-- Decoding of `np.frombuffer` for the struct formats used by `amplitude`:
`B` (1-byte unsigned), `h` (2-byte signed LE), `i` (4-byte signed LE). -/
def decodeSamples (w : Nat) (chunk : List Nat) : List Int :=
  if w = 1 then chunk.map (fun b => (b : Int))
  else (chunksOf w chunk).map (fun c => toSigned w (leVal c))

/-- Absolute value computed into an `np.int32` output (wrapping at 2^31, which
only matters for the most negative 4-byte sample). -/
def absI32 (x : Int) : Int := (|x| + 2 ^ 31) % 2 ^ 32 - 2 ^ 31

/-- Rounding to three decimal places (`round(x, 3)`). -/
def round3 (x : ℚ) : ℚ := ((round (x * 1000) : ℤ) : ℚ) / 1000

/-- One iteration of the `amplitude` loop: read `spf` audio frames, decode
them per the sample width, for 1-byte width subtract 128 in uint16
arithmetic (`tmp.astype(np.uint16) - 128`, which wraps modulo 2^16), take
absolute values into int32, and average.  `np.average` of an empty chunk
yields NaN, modelled as `none`. -/
def ampFrame (au : AudioSource) (spf k : Nat) : Option ℚ :=
  let sz := spf * au.nchannels * au.sampwidth
  let chunk := (au.bytes.drop (k * sz)).take sz
  let tmp := decodeSamples au.sampwidth chunk
  let tmp2 := if au.sampwidth = 1 then tmp.map (fun x => (x - 128) % 65536) else tmp
  let a := tmp2.map absI32
  if a.length = 0 then none
  else some (round3 ((a.map (fun x => (x : ℚ))).sum / (a.length : ℚ)))

/-- Sequential collection of the per-frame amplitude values, failing as soon
as one iteration fails. -/
def ampLoop (au : AudioSource) (spf : Nat) : List Nat → Option (List ℚ)
  | [] => some []
  | k :: ks => (ampFrame au spf k).bind fun q => (ampLoop au spf ks).map fun r => q :: r

/-- Embedding of `metrics.amplitude`: one value per declared video frame.
`frames = 0` raises ZeroDivisionError and a sample width outside the
`{1, 2, 4}` format table raises KeyError, both modelled as `none`. -/
def amplitude (au : AudioSource) (frames : Nat) : Option (List ℚ) :=
  if frames = 0 then none
  else if au.sampwidth = 1 ∨ au.sampwidth = 2 ∨ au.sampwidth = 4 then
    ampLoop au (getnframes au / frames) (List.range frames)
  else none

/-- Zero-padding of one `joint` member to the base length
(`temp.resize(result.shape)`, applied when the member is strictly shorter). -/
def jointNorm (base : Nat) (d : List ℚ) : List ℚ :=
  d ++ List.replicate (base - d.length) 0

/-- Loop body of `metrics.joint`: a member longer than the first cannot be
added in place to `result` (NumPy raises), a strictly shorter member is
zero-padded by `resize`, and each padded member is divided by its own
maximum (`np.max` of an empty array raises). -/
def jointLoop (base : Nat) : List ℚ → List (List ℚ) → Option (List ℚ)
  | result, [] => some result
  | result, d :: ds =>
    if base < d.length then none
    else
      (jointNorm base d).max?.bind fun m =>
        jointLoop base (List.zipWith (· + ·) result ((jointNorm base d).map (· / m))) ds

/-- Embedding of `metrics.joint`; `data[0]` on an empty list raises. -/
def joint (data : List (List ℚ)) : Option (List ℚ) :=
  match data with
  | [] => none
  | d :: ds => jointLoop d.length (List.replicate d.length 0) (d :: ds)

/-- Scan loop of `change_points`: `i` is the current index, `cur` the last
index whose value reached the cutoff (`curr_cp`), `cp` the recorded change
points. -/
def cpScan (cutoff : ℚ) : List ℚ → Nat → Nat → List Nat → List Nat × Nat
  | [], _, cur, cp => (cp, cur)
  | v :: vs, i, cur, cp =>
    if cutoff ≤ v then
      if 30 < i - cur then cpScan cutoff vs (i + 1) i (cp ++ [cur])
      else cpScan cutoff vs (i + 1) i cp
    else cpScan cutoff vs (i + 1) cur cp

/-- Cutoff of `change_points`: 30% of the maximum value (the Python `0.3`
modelled as the exact `3 / 10`). -/
def cutoffOf (m : ℚ) : ℚ := m * (3 / 10)

/-- Tail fixups of `change_points`: `cp[0]` raises on an empty scan result;
otherwise index 0 is forced in front and the final index at the back. -/
def cpTail : List Nat → Nat → Option (List Nat)
  | [], _ => none
  | c :: cs, len =>
    let cp1 := if c = 0 then c :: cs else 0 :: c :: cs
    some (if cp1.getLastD 0 = len - 1 then cp1 else cp1 ++ [len - 1])

/-- Embedding of `metrics.change_points`.  `max(data)` of an empty sequence
raises, and so does `cp[0]` when the scan recorded no change point; both are
`none`. -/
def change_points (data : List ℚ) : Option (List Nat) :=
  match data.max? with
  | none => none
  | some m => cpTail (cpScan (cutoffOf m) (data.drop 1) 1 0 []).1 data.length

/-- One serialized metric event: a line of the JSON output of `to_json`. -/
structure MetricEvent where
  timestamp : Int
  feature : String
  value : ℚ
  system : String
deriving DecidableEq

/-- Inner loop of `to_json`: one event per element of the sublist, the
timestamp advancing by 1000 per element. -/
def to_json_rows : String → Int → List ℚ → List MetricEvent
  | _, _, [] => []
  | f, t, v :: vs => ⟨t, f, v, "track1"⟩ :: to_json_rows f (t + 1000) vs

/-- Embedding of `metrics.to_json` as the stream of emitted records: the
base timestamp (`time.time() * 1000`, truncated to an integer) is a
parameter; after each sublist the running timestamp is reset to the base
(`time_stamp = copy`).  `features[i]` beyond the label list raises, which is
the `none` case. -/
def to_json : List (List ℚ) → List String → Int → Option (List MetricEvent)
  | [], _, _ => some []
  | _ :: _, [], _ => none
  | l :: ls, f :: fs, base =>
      (to_json ls fs base).map (fun r => to_json_rows f base l ++ r)

/-- Event stream shaped after the specification's words: one record per
(sequence, index) pair in sequence-major order, the record at index `j` of
each group carrying timestamp `base + 1000 * j`. -/
def eventStream (ls : List (List ℚ)) (fs : List String) (base : Int) : List MetricEvent :=
  ((ls.zip fs).map
    (fun g => g.1.enum.map (fun q => ⟨base + 1000 * (q.1 : Int), g.2, q.2, "track1"⟩))).flatten

/-! Theorems. -/

theorem brightLoop_length : ∀ (n : Nat) (fr : List (Option Frame)), (brightLoop fr n).length = n := by
  intro n
  induction n with
  | zero => intro fr; rcases fr with _ | ⟨_ | f, rest⟩ <;> rfl
  | succ n ih =>
    intro fr
    match fr with
    | [] => simpa [brightLoop] using ih []
    | none :: rest => simpa [brightLoop] using ih rest
    | some f :: rest => simpa [brightLoop] using ih rest

theorem brightLoop_getD : ∀ (n : Nat) (fr : List (Option Frame)) (k : Nat), k < n →
    (brightLoop fr n).getD k 0 =
      ((fr.get? k).join).elim (-1) (fun f => ((frameSum f % U32 : Nat) : Int)) := by
  intro n
  induction n with
  | zero => intro fr k hk; omega
  | succ n ih =>
    intro fr k hk
    match fr with
    | [] =>
      cases k with
      | zero => rfl
      | succ k => simpa [brightLoop] using ih [] k (by omega)
    | none :: rest =>
      cases k with
      | zero => rfl
      | succ k => simpa [brightLoop] using ih rest k (by omega)
    | some f :: rest =>
      cases k with
      | zero => rfl
      | succ k => simpa [brightLoop] using ih rest k (by omega)

theorem brightness_getD (v : FrameSource) (k : Nat) (hk : k < v.count) :
    (brightness v).getD k 0 =
      (readFrame v k).elim (-1) (fun f => ((frameSum f % U32 : Nat) : Int)) :=
  brightLoop_getD v.count v.frames k hk

/-- C3: for every FrameSource, `brightness` returns one value per declared
frame; the sentinel `-1` appears exactly at the positions where the read
failed, and every successfully decoded position carries the non-negative
uint32 sum of the frame's samples. -/
theorem brightness_frame_values (v : FrameSource) :
    (brightness v).length = v.count ∧
    ∀ k, k < v.count →
      (((brightness v).getD k 0 = -1) ↔ readFrame v k = none) ∧
      ∀ f, readFrame v k = some f →
        (brightness v).getD k 0 = ((frameSum f % U32 : Nat) : Int) ∧
        0 ≤ (brightness v).getD k 0 := by
  refine ⟨brightLoop_length v.count v.frames, fun k hk => ?_⟩
  have h := brightness_getD v k hk
  rcases hr : readFrame v k with _ | f
  · rw [hr] at h
    simp only [Option.elim] at h
    exact ⟨⟨fun _ => rfl, fun _ => h⟩, fun f hf => by simp at hf⟩
  · rw [hr] at h
    simp only [Option.elim] at h
    refine ⟨⟨fun h1 => ?_, fun h2 => by simp at h2⟩, fun f' hf' => ?_⟩
    · rw [h1] at h; omega
    · cases hf'
      exact ⟨h, by rw [h]; positivity⟩

/-- Witness for C3 at a concrete two-frame source whose second read fails. -/
theorem brightness_frame_values_wit :
    (brightness ⟨2, [some [[2, 3]], none]⟩).length = 2 ∧
    (brightness ⟨2, [some [[2, 3]], none]⟩).getD 0 0 = 5 ∧
    (brightness ⟨2, [some [[2, 3]], none]⟩).getD 1 0 = -1 := by
  refine ⟨(brightness_frame_values ⟨2, [some [[2, 3]], none]⟩).1, ?_, ?_⟩
  · exact (((brightness_frame_values ⟨2, [some [[2, 3]], none]⟩).2 0 (by decide)).2
      [[2, 3]] rfl).1.trans (by decide)
  · exact ((brightness_frame_values ⟨2, [some [[2, 3]], none]⟩).2 1 (by decide)).1.mpr rfl

/-- C7 (amended): a successfully decoded frame's brightness value is the
exact sample total whenever that total fits the 32-bit unsigned accumulator;
in general the stored value is the total reduced modulo 2^32. -/
theorem brightness_exact_of_no_overflow (v : FrameSource) (k : Nat) (f : Frame)
    (hk : k < v.count) (hf : readFrame v k = some f) (hs : frameSum f < U32) :
    (brightness v).getD k 0 = (frameSum f : Int) := by
  rw [brightness_getD v k hk, hf]
  simp only [Option.elim]
  rw [Nat.mod_eq_of_lt hs]

/-- Witness for the amended C7 at a concrete small frame. -/
theorem brightness_exact_of_no_overflow_wit :
    (brightness ⟨1, [some [[2, 3]]]⟩).getD 0 0 = 5 := by
  exact (brightness_exact_of_no_overflow ⟨1, [some [[2, 3]]]⟩ 0 [[2, 3]]
    (by decide) rfl (by norm_num [frameSum, U32])).trans (by decide)

/-- Counterexample to C7 as stated: a 2^25-sample full-intensity frame has
exact sample total 2^25 * 255 = 8556380160, but the uint32 accumulation
stores 8556380160 % 2^32 = 4261412864, so the emitted brightness is not the
exact mathematical sum. -/
theorem brightness_overflow_cex :
    brightness ⟨1, [some ovFrame]⟩ = [(4261412864 : Int)] ∧
    frameSum ovFrame = 8556380160 ∧ (4261412864 : Int) ≠ (8556380160 : Int) := by
  have hs : frameSum ovFrame = 8556380160 := by
    show (List.map List.sum (List.replicate (2 ^ 25) [255])).sum = 8556380160
    rw [List.map_replicate, List.sum_replicate]
    norm_num
  refine ⟨?_, hs, by decide⟩
  show ((frameSum ovFrame % U32 : Nat) : Int) :: brightLoop [] 0 = [(4261412864 : Int)]
  rw [hs]
  norm_num [U32, brightLoop]

theorem contrastLoop_length : ∀ (n : Nat) (prev : Frame) (fr : List (Option Frame)),
    (contrastLoop prev fr n).length = n := by
  intro n
  induction n with
  | zero => intro prev fr; rcases fr with _ | ⟨_ | f, rest⟩ <;> rfl
  | succ n ih =>
    intro prev fr
    match fr with
    | [] => simpa [contrastLoop] using ih prev []
    | none :: rest => simpa [contrastLoop] using ih prev rest
    | some f :: rest => simpa [contrastLoop] using ih f rest

/-- C4 (amended): whenever the first frame read succeeds, `contrast` returns
a sequence of length `frameCount - 1`.  (When the first read fails the
Python code dereferences `None` and crashes instead of returning a
sequence.) -/
theorem contrast_length (v : FrameSource) (f : Frame) (rest : List (Option Frame))
    (hv : v.frames = some f :: rest) :
    (contrast v).map List.length = some (v.count - 1) := by
  unfold contrast
  rw [hv]
  simp [contrastLoop_length]

/-- Witness for the amended C4 at a concrete three-frame source. -/
theorem contrast_length_wit :
    (contrast ⟨3, [some [[1]], some [[2]], none]⟩).map List.length = some 2 :=
  (contrast_length ⟨3, [some [[1]], some [[2]], none]⟩ [[1]] [some [[2]], none] rfl).trans rfl

/-- Counterexample to C4 as stated: on a source with no readable frame the
first `video.read()` yields `None`, and `contrast` crashes on
`None.astype` rather than returning the required length-`max(count-1,0)`
(here length-0) sequence. -/
theorem contrast_empty_cex : contrast ⟨0, []⟩ = none := rfl

theorem contrastLoop_skip (a : Frame) (b : Frame) : ∀ (k : Nat),
    contrastLoop a (List.replicate k none ++ [some b]) (k + 1) =
      List.replicate k (-1) ++ [((sad a b % U32 : Nat) : Int)] := by
  intro k
  induction k with
  | zero => rfl
  | succ k ih =>
    show contrastLoop a (none :: (List.replicate k none ++ [some b])) (k + 2) = _
    rw [contrastLoop, ih]
    rfl

/-- C5: after a failed frame read `-1` is recorded and the previous-frame
reference is not advanced, so the next successfully decoded frame is
compared against the last successfully read frame: for any frames `a`, `b`
separated by `k` failed reads, the output is `k` sentinels followed by the
absolute-difference sum of `a` and `b`. -/
theorem contrast_holds_prev (a b : Frame) (k : Nat) :
    contrast ⟨k + 2, some a :: (List.replicate k none ++ [some b])⟩ =
      some (List.replicate k (-1) ++ [((sad a b % U32 : Nat) : Int)]) := by
  show some (contrastLoop a (List.replicate k none ++ [some b]) (k + 2 - 1)) = _
  rw [show k + 2 - 1 = k + 1 from rfl, contrastLoop_skip a b k]

theorem range_map_sum (g : Nat → Nat) : ∀ n : Nat,
    ((List.range n).map g).sum = ∑ b in Finset.range n, g b := by
  intro n
  induction n with
  | zero => rfl
  | succ n ih =>
    rw [List.range_succ, List.map_append, List.sum_append, Finset.sum_range_succ, ih]
    rfl

theorem countP_bin_sum : ∀ f : Frame, (∀ p ∈ f, binOf p < 512) →
    ∑ b in Finset.range 512, f.countP (fun p => binOf p == b) = f.length := by
  intro f
  induction f with
  | nil => intro _; simp
  | cons p ps ih =>
    intro hf
    have hp : binOf p < 512 := hf p (by simp)
    have ihs := ih (fun q hq => hf q (by simp [hq]))
    simp only [List.countP_cons, List.length_cons]
    rw [Finset.sum_add_distrib, ihs]
    have hb : ∀ b : Nat, (if (binOf p == b) = true then 1 else 0) = if binOf p = b then 1 else 0 := by
      intro b
      by_cases hbb : binOf p = b <;> simp [hbb]
    rw [Finset.sum_congr rfl (fun b _ => hb b), Finset.sum_ite_eq,
      if_pos (Finset.mem_range.mpr hp)]

theorem binOf_lt (p : List Nat) (h3 : p.length = 3) (hc : ∀ c ∈ p, c < 256) :
    binOf p < 512 := by
  match p, h3 with
  | [r, g, b], _ =>
    have hr : r < 256 := hc r (by simp)
    have hg : g < 256 := hc g (by simp)
    have hb : b < 256 := hc b (by simp)
    simp only [binOf, List.zipWith, List.sum_cons, List.sum_nil]
    omega

/-- C9: for every successfully decoded frame of `width * height` pixels with
three 8-bit channels each, the per-frame occupancy vector built by
`histogram` (the 512-bin `bincount`) sums to exactly `width * height`:
every pixel falls into exactly one bin. -/
theorem bincount_total (w h : Nat) (f : Frame) (hlen : f.length = w * h)
    (hwf : ∀ p ∈ f, p.length = 3 ∧ ∀ c ∈ p, c < 256) :
    (bincount f).sum = w * h := by
  rw [bincount, range_map_sum, countP_bin_sum f ?_, hlen]
  intro p hp
  obtain ⟨hp3, hpc⟩ := hwf p hp
  exact binOf_lt p hp3 hpc

/-- Witness for C9 at a concrete 2-pixel frame. -/
theorem bincount_total_wit : (bincount [[0, 0, 0], [255, 255, 255]]).sum = 2 * 1 :=
  bincount_total 2 1 [[0, 0, 0], [255, 255, 255]] (by decide) (by decide)

theorem to_json_rows_enumFrom (f : String) (base : Int) :
    ∀ (l : List ℚ) (j : Nat),
      to_json_rows f (base + 1000 * (j : Int)) l =
        (l.enumFrom j).map (fun q => ⟨base + 1000 * (q.1 : Int), f, q.2, "track1"⟩) := by
  intro l
  induction l with
  | nil => intro j; rfl
  | cons v vs ih =>
    intro j
    show (⟨base + 1000 * (j : Int), f, v, "track1"⟩ : MetricEvent) ::
        to_json_rows f (base + 1000 * (j : Int) + 1000) vs = _
    rw [List.enumFrom_cons, List.map_cons]
    congr 1
    have hj : base + 1000 * (j : Int) + 1000 = base + 1000 * ((j + 1 : Nat) : Int) := by
      push_cast
      ring
    rw [hj, ih (j + 1)]

theorem to_json_rows_enum (f : String) (base : Int) (l : List ℚ) :
    to_json_rows f base l =
      l.enum.map (fun q => ⟨base + 1000 * (q.1 : Int), f, q.2, "track1"⟩) := by
  have h := to_json_rows_enumFrom f base l 0
  simpa using h

/-- C2: `to_json` emits one record per (sequence, index) pair in
sequence-major, index-minor order; the record at index `j` of every group
carries timestamp `base + 1000 * j` for the one base fixed per invocation,
so groups restart from the same base and records of different sequences at
the same index share a timestamp.  In particular for `[[1,2],[3,4]]` the
four records' timestamps are `base, base+1000, base, base+1000`. -/
theorem to_json_stream :
    (∀ (ls : List (List ℚ)) (fs : List String) (base : Int), ls.length ≤ fs.length →
      to_json ls fs base = some (eventStream ls fs base)) ∧
    (∀ base : Int, to_json [[1, 2], [3, 4]] ["a", "b"] base =
      some [⟨base, "a", 1, "track1"⟩, ⟨base + 1000, "a", 2, "track1"⟩,
            ⟨base, "b", 3, "track1"⟩, ⟨base + 1000, "b", 4, "track1"⟩]) := by
  constructor
  · intro ls
    induction ls with
    | nil => intro fs base _; rfl
    | cons l ls ih =>
      intro fs base hlen
      match fs with
      | [] => simp at hlen
      | f :: fs =>
        show (to_json ls fs base).map (fun r => to_json_rows f base l ++ r) = _
        rw [ih fs base (by simpa using hlen)]
        show some (to_json_rows f base l ++ eventStream ls fs base) = _
        rw [to_json_rows_enum]
        rfl
  · intro base
    rfl

/-- Witness for C2 at the concrete input of the claim (base 0). -/
theorem to_json_stream_wit :
    to_json [[1, 2], [3, 4]] ["a", "b"] 0 = some (eventStream [[1, 2], [3, 4]] ["a", "b"] 0) ∧
    eventStream [[1, 2], [3, 4]] ["a", "b"] 0 =
      [⟨0, "a", 1, "track1"⟩, ⟨1000, "a", 2, "track1"⟩,
       ⟨0, "b", 3, "track1"⟩, ⟨1000, "b", 4, "track1"⟩] :=
  ⟨to_json_stream.1 [[1, 2], [3, 4]] ["a", "b"] 0 (by decide), by rfl⟩

theorem zipWith_zero_add : ∀ l : List ℚ,
    List.zipWith (· + ·) (List.replicate l.length (0 : ℚ)) l = l := by
  intro l
  induction l with
  | nil => rfl
  | cons a l ih => simp [List.replicate_succ, ih]

theorem zipWith_add_self_map (g : ℚ → ℚ) : ∀ l : List ℚ,
    List.zipWith (· + ·) (l.map g) (l.map g) = l.map (fun x => g x + g x) := by
  intro l
  induction l with
  | nil => rfl
  | cons a l ih => simp [ih]

theorem jointNorm_length (base : Nat) (d : List ℚ) (h : d.length ≤ base) :
    (jointNorm base d).length = base := by
  rw [jointNorm, List.length_append, List.length_replicate]
  omega

theorem jointLoop_some_length (base : Nat) : ∀ (ds : List (List ℚ)) (result : List ℚ),
    result.length = base → 0 < base → (∀ d ∈ ds, d.length ≤ base) →
    ∃ r, jointLoop base result ds = some r ∧ r.length = base := by
  intro ds
  induction ds with
  | nil => intro result hres _ _; exact ⟨result, rfl, hres⟩
  | cons d ds ih =>
    intro result hres hbase hds
    have hd : d.length ≤ base := hds d (by simp)
    have htlen : (jointNorm base d).length = base := jointNorm_length base d hd
    rw [jointLoop, if_neg (by omega)]
    rcases hm : (jointNorm base d).max? with _ | m
    · rw [List.max?_eq_none_iff.mp hm] at htlen
      simp at htlen
      omega
    · rw [Option.some_bind]
      exact ih _ (by rw [List.length_zipWith, List.length_map, htlen, hres, min_self]) hbase
        (fun d' hd' => hds d' (by simp [hd']))

/-- C6 (amended): for every list of input sequences whose first member is
non-empty and whose later members are no longer than the first, `joint`
returns a sequence of the first input's length (shorter inputs are
zero-padded); each input is divided by its own maximum and the results are
summed, so `joint [s, s]` equals `2 * (s / max s)` elementwise for any
non-empty `s` of positive values — a sum, not an average.  (On a list whose
first sequence is empty the code crashes on `np.max` of an empty array
instead of returning a sequence.) -/
theorem joint_sum_of_normalized :
    (∀ (d0 : List ℚ) (ds : List (List ℚ)), d0 ≠ [] → (∀ d ∈ ds, d.length ≤ d0.length) →
      (joint (d0 :: ds)).map List.length = some d0.length) ∧
    (∀ s : List ℚ, s ≠ [] → (∀ x ∈ s, 0 < x) →
      joint [s, s] = some (s.map (fun x => 2 * (x / (s.max?.getD 0))))) := by
  constructor
  · intro d0 ds h0 hds
    obtain ⟨r, hr, hrl⟩ := jointLoop_some_length d0.length (d0 :: ds)
      (List.replicate d0.length 0) (by simp) (List.length_pos.mpr h0)
      (fun d hd => by
        rcases List.mem_cons.mp hd with h | h
        · subst h; exact le_refl _
        · exact hds d h)
    show (jointLoop d0.length (List.replicate d0.length 0) (d0 :: ds)).map List.length = _
    rw [hr]
    simp [hrl]
  · intro s hs _
    obtain ⟨m, hm⟩ : ∃ m, s.max? = some m := by
      rcases h : s.max? with _ | m
      · exact absurd (List.max?_eq_none_iff.mp h) hs
      · exact ⟨m, rfl⟩
    have htemp : jointNorm s.length s = s := by simp [jointNorm]
    have h1 : List.zipWith (· + ·) (List.replicate s.length (0 : ℚ)) (s.map (· / m)) =
        s.map (· / m) := by
      have := zipWith_zero_add (s.map (· / m))
      rwa [List.length_map] at this
    show jointLoop s.length (List.replicate s.length 0) [s, s] = _
    rw [jointLoop, if_neg (by omega), htemp, hm, Option.some_bind, h1,
      jointLoop, if_neg (by omega), htemp, hm, Option.some_bind,
      zipWith_add_self_map (· / m) s, jointLoop]
    simp only [Option.getD_some]
    congr 1
    exact List.map_congr_left (fun x _ => by ring)

/-- Witness for the amended C6: a padded two-list input keeps the first
list's length, and a doubled positive sequence yields twice its
peak-normalization. -/
theorem joint_sum_of_normalized_wit :
    ((joint [[1, 2], [3]]).map List.length = some 2) ∧
    (joint [[1, 2], [1, 2]] = some [1, 2]) :=
  ⟨joint_sum_of_normalized.1 [1, 2] [[3]] (by decide) (by decide),
   (joint_sum_of_normalized.2 [1, 2] (by decide) (by decide)).trans (by
      rw [show (([1, 2] : List ℚ).max?) = some 2 from by decide]
      norm_num)⟩

/-- Counterexample to C6 as stated: on the list `[[]]` (no later members at
all, so the length condition holds vacuously) the code raises on `np.max`
of an empty array instead of returning the length-0 sequence. -/
theorem joint_first_empty_cex : joint [([] : List ℚ)] = none := by decide

theorem jointLoop_none_of_long (base : Nat) : ∀ (ds : List (List ℚ)) (result : List ℚ),
    result.length = base → (∃ d ∈ ds, base < d.length) →
    jointLoop base result ds = none := by
  intro ds
  induction ds with
  | nil => intro result _ hex; simp at hex
  | cons d ds ih =>
    intro result hres hex
    by_cases hb : base < d.length
    · rw [jointLoop, if_pos hb]
    · rw [jointLoop, if_neg hb]
      obtain ⟨d', hd', hlong⟩ := hex
      have hd'' : d' ∈ ds := by
        rcases List.mem_cons.mp hd' with h | h
        · subst h; omega
        · exact h
      have htlen : (jointNorm base d).length = base := jointNorm_length base d (by omega)
      rcases hm : (jointNorm base d).max? with _ | m
      · rfl
      · rw [Option.some_bind]
        exact ih _ (by rw [List.length_zipWith, List.length_map, htlen, hres, min_self])
          ⟨d', hd'', hlong⟩

/-- C10: when some sequence after the first is strictly longer than the
first, `joint` fails (the in-place addition of a longer array raises in
NumPy) rather than truncating or padding; only strictly shorter sequences
are resized. -/
theorem joint_rejects_longer (d0 : List ℚ) (ds : List (List ℚ)) (d : List ℚ)
    (hd : d ∈ ds) (hlong : d0.length < d.length) : joint (d0 :: ds) = none := by
  show jointLoop d0.length (List.replicate d0.length 0) (d0 :: ds) = none
  exact jointLoop_none_of_long d0.length (d0 :: ds) _ (by simp)
    ⟨d, List.mem_cons_of_mem d0 hd, hlong⟩

/-- Witness for C10 at a concrete input with a longer second sequence. -/
theorem joint_rejects_longer_wit : joint [[1], [2, 3]] = none :=
  joint_rejects_longer [1] [[2, 3]] [2, 3] (by decide) (by decide)

theorem cpScan_inv (cutoff : ℚ) : ∀ (vs : List ℚ) (i cur : Nat) (cp : List Nat),
    cur < i → cp.Chain' (· < ·) → (∀ x ∈ cp, x < cur) →
    (cpScan cutoff vs i cur cp).1.Chain' (· < ·) ∧
    (∀ x ∈ (cpScan cutoff vs i cur cp).1, x < (cpScan cutoff vs i cur cp).2) ∧
    (cpScan cutoff vs i cur cp).2 < i + vs.length := by
  intro vs
  induction vs with
  | nil =>
    intro i cur cp hci hch hlt
    exact ⟨hch, hlt, by simpa using hci⟩
  | cons v vs ih =>
    intro i cur cp hci hch hlt
    rw [cpScan]
    by_cases hv : cutoff ≤ v
    · by_cases hgap : 30 < i - cur
      · rw [if_pos hv, if_pos hgap]
        have hch' : (cp ++ [cur]).Chain' (· < ·) := by
          rw [List.chain'_append]
          refine ⟨hch, List.chain'_singleton _, fun x hx y hy => ?_⟩
          have hy' : cur = y := by simpa using hy
          have hx' : x < cur := hlt x (List.mem_of_mem_getLast? hx)
          omega
        have hlt' : ∀ x ∈ cp ++ [cur], x < i := by
          intro x hx
          rcases List.mem_append.mp hx with h | h
          · exact lt_trans (hlt x h) hci
          · have : x = cur := by simpa using h
            omega
        obtain ⟨a, b, c⟩ := ih (i + 1) i (cp ++ [cur]) (by omega) hch' hlt'
        exact ⟨a, b, by simp only [List.length_cons]; omega⟩
      · rw [if_pos hv, if_neg hgap]
        obtain ⟨a, b, c⟩ := ih (i + 1) i cp (by omega) hch
          (fun x hx => lt_trans (hlt x hx) hci)
        exact ⟨a, b, by simp only [List.length_cons]; omega⟩
    · rw [if_neg hv]
      obtain ⟨a, b, c⟩ := ih (i + 1) cur cp (by omega) hch hlt
      exact ⟨a, b, by simp only [List.length_cons]; omega⟩

/-- C1 (amended): whenever `change_points` returns at all (the scan recorded
at least one change point; otherwise the Python `cp[0]` crashes, also on
many non-empty inputs), the result is strictly ascending, starts at index 0,
ends at index `length - 1`, and has at least 2 elements. -/
theorem change_points_sound (data : List ℚ) (r : List Nat)
    (hr : change_points data = some r) :
    r.Chain' (· < ·) ∧ r.head? = some 0 ∧
    r.getLast? = some (data.length - 1) ∧ 2 ≤ r.length := by
  unfold change_points at hr
  split at hr
  · exact absurd hr (by simp)
  · rename_i m hmax
    have hdata : data ≠ [] := fun h => by
      rw [h] at hmax
      simp [List.max?] at hmax
    have hlen1 : 1 ≤ data.length := List.length_pos.mpr hdata
    obtain ⟨a, b, c⟩ := cpScan_inv (cutoffOf m) (data.drop 1) 1 0 []
      (by omega) List.chain'_nil (by simp)
    rw [List.length_drop] at c
    rcases h1 : (cpScan (cutoffOf m) (data.drop 1) 1 0 []).1 with _ | ⟨cc, cs⟩
    · rw [h1] at hr
      simp [cpTail] at hr
    · rw [h1] at hr
      rw [h1] at a b
      have hbound : ∀ x ∈ cc :: cs, x < data.length - 1 := by
        intro x hx
        have := b x hx
        omega
    -- the if-fixups: cp1 starts with 0 and all its entries stay below the
    -- final index, so the final index is always appended
      rcases hcc : decide (cc = 0) with _ | _
      · have hcc' : ¬ cc = 0 := of_decide_eq_false hcc
        have hb0 : (0 : Nat) < data.length - 1 := by
          have := hbound cc (by simp)
          omega
        have hch1 : (0 :: cc :: cs).Chain' (· < ·) :=
          List.chain'_cons.mpr ⟨Nat.pos_of_ne_zero hcc', a⟩
        have helems : ∀ x ∈ 0 :: cc :: cs, x < data.length - 1 := by
          intro x hx
          rcases List.mem_cons.mp hx with h | h
          · omega
          · exact hbound x h
        have hne : (0 :: cc :: cs).getLastD 0 ≠ data.length - 1 := by
          have hmem : (0 :: cc :: cs).getLastD 0 ∈ 0 :: cc :: cs :=
            List.mem_of_mem_getLast? rfl
          have := helems _ hmem
          omega
        rw [cpTail, if_neg hcc', if_neg hne] at hr
        have hrv : r = (0 :: cc :: cs) ++ [data.length - 1] := (Option.some.inj hr).symm
        subst hrv
        refine ⟨?_, rfl, List.getLast?_concat _, by simp⟩
        rw [List.chain'_append]
        refine ⟨hch1, List.chain'_singleton _, fun x hx y hy => ?_⟩
        have hy' : data.length - 1 = y := by simpa using hy
        have hx' := helems x (List.mem_of_mem_getLast? hx)
        omega
      · have hcc' : cc = 0 := of_decide_eq_true hcc
        subst hcc'
        have hne : (0 :: cs).getLastD 0 ≠ data.length - 1 := by
          have hmem : (0 :: cs).getLastD 0 ∈ 0 :: cs :=
            List.mem_of_mem_getLast? rfl
          have := hbound _ hmem
          omega
        rw [cpTail, if_pos rfl, if_neg hne] at hr
        have hrv : r = (0 :: cs) ++ [data.length - 1] := (Option.some.inj hr).symm
        subst hrv
        refine ⟨?_, rfl, List.getLast?_concat _, by simp⟩
        rw [List.chain'_append]
        refine ⟨a, List.chain'_singleton _, fun x hx y hy => ?_⟩
        have hy' : data.length - 1 = y := by simpa using hy
        have hx' := hbound x (List.mem_of_mem_getLast? hx)
        omega

set_option maxRecDepth 20000 in
/-- Witness for the amended C1: on 31 zeroes followed by a 10 the scan
records index 0, and the result [0, 31] is strictly ascending from 0 to
the final index. -/
theorem change_points_sound_wit :
    ([0, 31] : List Nat).Chain' (· < ·) ∧ ([0, 31] : List Nat).head? = some 0 ∧
    ([0, 31] : List Nat).getLast? = some ((List.replicate 31 (0 : ℚ) ++ [10]).length - 1) ∧
    2 ≤ ([0, 31] : List Nat).length := by
  apply change_points_sound (List.replicate 31 (0 : ℚ) ++ [10]) [0, 31]
  have hmax : (List.replicate 31 (0 : ℚ) ++ [10]).max? = some 10 := by decide
  have key : cpTail
      (cpScan (cutoffOf 10) ((List.replicate 31 (0 : ℚ) ++ [10]).drop 1) 1 0 []).1
      (List.replicate 31 (0 : ℚ) ++ [10]).length = some [0, 31] := by
    rw [show cutoffOf 10 = 3 by norm_num [cutoffOf]]
    decide
  unfold change_points
  rw [hmax]
  exact key

/-- Counterexample to C1 as stated: the input `[10, 10]` is non-empty, yet
the scan records no change point, the list `cp` stays empty and the Python
code crashes on `cp[0]` instead of returning an index sequence. -/
theorem change_points_crash_cex :
    change_points ([10, 10] : List ℚ) = none ∧ ([10, 10] : List ℚ) ≠ [] := by
  constructor
  · have hmax : ([10, 10] : List ℚ).max? = some 10 := by decide
    have key : cpTail (cpScan (cutoffOf 10) (([10, 10] : List ℚ).drop 1) 1 0 []).1
        ([10, 10] : List ℚ).length = none := by
      rw [show cutoffOf 10 = 3 by norm_num [cutoffOf]]
      decide
    unfold change_points
    rw [hmax]
    exact key
  · decide

/-- C8 (code bug): for 1-byte samples the code's own comment promises the
remap "from [0..255] to [-128..127]", but `tmp.astype(np.uint16) - 128`
wraps modulo 2^16 for bytes below 128: a constant buffer of byte value 0
yields amplitude 65408 = (0 - 128) mod 2^16 instead of the signed-centered
|0 - 128| = 128 that the claim (and the comment) state. -/
theorem amplitude_wrap_bug :
    amplitude ⟨1, 1, [0, 0]⟩ 2 = some [65408, 65408] ∧
    |(0 : ℚ) - 128| = 128 ∧ (65408 : ℚ) ≠ 128 := by
  refine ⟨?_, by norm_num, by norm_num⟩
  have h0 : ampFrame ⟨1, 1, [0, 0]⟩ 1 0 = some 65408 := by
    simp only [ampFrame, decodeSamples]
    norm_num [round3, absI32]
  have h1 : ampFrame ⟨1, 1, [0, 0]⟩ 1 1 = some 65408 := by
    simp only [ampFrame, decodeSamples]
    norm_num [round3, absI32]
  show ampLoop ⟨1, 1, [0, 0]⟩ (getnframes ⟨1, 1, [0, 0]⟩ / 2) (List.range 2) = _
  have hn : getnframes ⟨1, 1, [0, 0]⟩ / 2 = 1 := by decide
  rw [hn, show List.range 2 = [0, 1] from rfl, ampLoop, h0, Option.some_bind,
    ampLoop, h1, Option.some_bind, ampLoop]
  rfl

end Data2Music
